import Mathlib

/-!
Verification of the IRC line parser/serializer of py-irclib.

Strings of the Python source are modelled as `List Char`; `str` methods
used by the code (`partition`, `split`, `strip`, `join`) are embedded as
executable functions on `List Char` with the exact Python semantics.
-/

namespace Irc

abbrev Str := List Char

/-- Convert a Lean string literal to the `List Char` model. -/
def strL (s : String) : Str := s.data

/-- Python `text.partition(sep)` for a one-character separator: returns the
part before the first occurrence of `sep`, whether `sep` was found, and the
part after it.  When `sep` is absent the result is `(text, false, "")`. -/
def partitionStr (sep : Char) : Str → Str × Bool × Str
  | [] => ([], false, [])
  | c :: rest =>
    if c = sep then ([], true, rest)
    else
      let r := partitionStr sep rest
      (c :: r.1, r.2.1, r.2.2)

theorem partitionStr_not_mem {sep : Char} {l : Str} (h : sep ∉ l) :
    partitionStr sep l = (l, false, []) := by
  induction l with
  | nil => rfl
  | cons c rest ih =>
    simp only [List.mem_cons, not_or] at h
    simp [partitionStr, Ne.symm h.1, ih h.2]

theorem partitionStr_append {sep : Char} {a b : Str} (h : sep ∉ a) :
    partitionStr sep (a ++ sep :: b) = (a, true, b) := by
  induction a with
  | nil => simp [partitionStr]
  | cons c rest ih =>
    simp only [List.mem_cons, not_or] at h
    simp [partitionStr, Ne.symm h.1, ih h.2]

theorem partitionStr_rest_le (sep : Char) (l : Str) :
    (partitionStr sep l).2.2.length ≤ l.length := by
  induction l with
  | nil => simp [partitionStr]
  | cons c rest ih =>
    by_cases hc : c = sep
    · simp [partitionStr, hc]
    · simp only [partitionStr, if_neg hc, List.length_cons]
      omega

theorem partitionStr_rest_lt (sep : Char) (c : Char) (l : Str) :
    (partitionStr sep (c :: l)).2.2.length < (c :: l).length := by
  by_cases hc : c = sep
  · simp [partitionStr, hc]
  · simp only [partitionStr, if_neg hc, List.length_cons]
    have := partitionStr_rest_le sep l
    omega

/-- Helper for `pySplit`: scans the text, `cur` holding the reversed chars of
the piece being read. -/
def pySplitAux (sep : Char) (cur : Str) : Str → List Str
  | [] => [cur.reverse]
  | c :: rest =>
    if c = sep then cur.reverse :: pySplitAux sep [] rest
    else pySplitAux sep (c :: cur) rest

/-- Python `text.split(sep)` for a one-character separator (empty pieces are
kept, and the empty string splits to `[""]`). -/
def pySplit (sep : Char) (s : Str) : List Str := pySplitAux sep [] s

/-- Python `sep.join(parts)` for a one-character separator. -/
def joinSep (sep : Char) : List Str → Str
  | [] => []
  | [a] => a
  | a :: b :: t => a ++ sep :: joinSep sep (b :: t)

theorem pySplitAux_append {sep : Char} {a : Str} (ha : sep ∉ a)
    (cur x : Str) : pySplitAux sep cur (a ++ x) = pySplitAux sep (a.reverse ++ cur) x := by
  induction a generalizing cur with
  | nil => simp
  | cons c t ih =>
    simp only [List.mem_cons, not_or] at ha
    simp [pySplitAux, Ne.symm ha.1, ih ha.2]

theorem pySplit_join {sep : Char} (a : Str) (l : List Str)
    (ha : sep ∉ a) (hl : ∀ s ∈ l, sep ∉ s) :
    pySplit sep (joinSep sep (a :: l)) = a :: l := by
  induction l generalizing a with
  | nil =>
    have h1 := pySplitAux_append ha ([] : Str) ([] : Str)
    simp only [List.append_nil] at h1
    rw [joinSep, pySplit, h1]
    simp [pySplitAux]
  | cons b t ih =>
    rw [joinSep, pySplit, pySplitAux_append ha]
    have hb : sep ∉ b := hl b (by simp)
    have ht : ∀ s ∈ t, sep ∉ s := fun s hs => hl s (by simp [hs])
    simpa [pySplitAux] using ih b hb ht

theorem mem_joinSep {sep : Char} {c : Char} {l : List Str}
    (h : ∀ s ∈ l, c ∉ s) (hc : c ≠ sep) : c ∉ joinSep sep l := by
  induction l with
  | nil => simp [joinSep]
  | cons a t ih =>
    cases t with
    | nil => simpa [joinSep] using h a (by simp)
    | cons b t2 =>
      rw [joinSep]
      simp only [List.mem_append, List.mem_cons, not_or]
      refine ⟨h a (by simp), hc, ?_⟩
      have := ih (fun s hs => h s (by simp [List.mem_cons] at hs ⊢; tauto))
      simpa using this

/-! ### Message tags (`MessageTag`, `TagList` of `irclib/parser.py`) -/

/-- A message tag: `MessageTag.__init__(name, value="", has_value=False)`. -/
structure MessageTag where
  name : Str
  value : Str
  hasValue : Bool
deriving DecidableEq, Repr

/-- One character of `MessageTag.escape`: the `TAG_VALUE_UNESCAPES` table. -/
def escChar (c : Char) : Str :=
  if c = '\\' then ['\\', '\\']
  else if c = ';' then ['\\', ':']
  else if c = ' ' then ['\\', 's']
  else if c = '\r' then ['\\', 'r']
  else if c = '\n' then ['\\', 'n']
  else [c]

/-- `MessageTag.escape`. -/
def escape (v : Str) : Str := (v.map escChar).flatten

/-- The `TAG_VALUE_ESCAPES.get("\\" + char, char)` lookup of
`MessageTag.unescape`. -/
def unescMap (c : Char) : Char :=
  if c = 's' then ' '
  else if c = ':' then ';'
  else if c = 'r' then '\r'
  else if c = 'n' then '\n'
  else c

/-- `MessageTag.unescape`: a backslash escapes the next character; a trailing
lone backslash is dropped. -/
def unescape : Str → Str
  | [] => []
  | c :: rest =>
    if c = '\\' then
      match rest with
      | [] => []
      | d :: rest2 => unescMap d :: unescape rest2
    else c :: unescape rest

/-- `MessageTag.parse`: split on the first `=`; a non-empty right side is
unescaped; `has_value` records whether `=` was present. -/
def tagParse (text : Str) : MessageTag :=
  let r := partitionStr '=' text
  ⟨r.1, if r.2.2 = [] then r.2.2 else unescape r.2.2, r.2.1⟩

/-- `MessageTag.__str__`: `name=escape(value)` when the value is non-empty or
`has_value` is set, else the bare name. -/
def tagStr (t : MessageTag) : Str :=
  if t.value ≠ [] ∨ t.hasValue then t.name ++ '=' :: escape t.value
  else t.name

theorem escape_cons (c : Char) (v : Str) :
    escape (c :: v) = escChar c ++ escape v := by
  simp [escape]

theorem unescape_cons (c : Char) (rest : Str) :
    unescape (c :: rest) =
      if c = '\\' then
        (match rest with
         | [] => []
         | d :: rest2 => unescMap d :: unescape rest2)
      else c :: unescape rest := by
  rw [unescape.eq_def]
  rfl

theorem unescape_esc (d : Char) (rest : Str) :
    unescape ('\\' :: d :: rest) = unescMap d :: unescape rest := by
  rw [unescape_cons, if_pos rfl]

theorem escChar_ne_nil (c : Char) : escChar c ≠ [] := by
  unfold escChar
  split_ifs <;> simp

theorem mem_escChar {x c : Char} (h : x ∈ escChar c) : x ≠ ' ' ∧ x ≠ ';' := by
  unfold escChar at h
  split_ifs at h with h1 h2 h3 h4 h5 <;>
    simp only [List.mem_cons, List.not_mem_nil, or_false] at h
  · rcases h with rfl | rfl <;> exact ⟨by decide, by decide⟩
  · rcases h with rfl | rfl <;> exact ⟨by decide, by decide⟩
  · rcases h with rfl | rfl <;> exact ⟨by decide, by decide⟩
  · rcases h with rfl | rfl <;> exact ⟨by decide, by decide⟩
  · rcases h with rfl | rfl <;> exact ⟨by decide, by decide⟩
  · subst h
    exact ⟨h3, h2⟩

theorem unescape_escChar (c : Char) (r : Str) :
    unescape (escChar c ++ r) = c :: unescape r := by
  unfold escChar
  split_ifs with h1 h2 h3 h4 h5
  · subst h1
    rw [List.cons_append, List.cons_append, List.nil_append, unescape_esc]
    rfl
  · subst h2
    rw [List.cons_append, List.cons_append, List.nil_append, unescape_esc]
    rfl
  · subst h3
    rw [List.cons_append, List.cons_append, List.nil_append, unescape_esc]
    rfl
  · subst h4
    rw [List.cons_append, List.cons_append, List.nil_append, unescape_esc]
    rfl
  · subst h5
    rw [List.cons_append, List.cons_append, List.nil_append, unescape_esc]
    rfl
  · rw [List.cons_append, List.nil_append, unescape_cons, if_neg h1]

theorem unescape_escape (v : Str) : unescape (escape v) = v := by
  induction v with
  | nil => rfl
  | cons c rest ih =>
    rw [escape_cons, unescape_escChar, ih]

theorem escape_eq_nil_iff (v : Str) : escape v = [] ↔ v = [] := by
  cases v with
  | nil => simp [escape]
  | cons c rest =>
    rw [escape_cons]
    simp [escChar_ne_nil c]

theorem mem_escape {c : Char} {v : Str} (h : c ∈ escape v) :
    c ≠ ' ' ∧ c ≠ ';' := by
  induction v with
  | nil => simp [escape] at h
  | cons d rest ih =>
    rw [escape_cons, List.mem_append] at h
    rcases h with h | h
    · exact mem_escChar h
    · exact ih h

/-- Tag names that survive serialization intact: non-empty, free of the tag
separator, the value separator and the parameter separator. -/
def cleanTagName (n : Str) : Bool :=
  !n.isEmpty && n.all (fun c => c ≠ ';' && c ≠ '=' && c ≠ ' ')

theorem tagParse_tagStr {t : MessageTag} (h : cleanTagName t.name = true) :
    tagParse (tagStr t) = ⟨t.name, t.value, decide (t.value ≠ []) || t.hasValue⟩ := by
  have hname : ∀ c ∈ t.name, c ≠ ';' ∧ c ≠ '=' ∧ c ≠ ' ' := by
    intro c hc
    simp only [cleanTagName, Bool.and_eq_true, List.all_eq_true] at h
    have := h.2 c hc
    simp only [Bool.and_eq_true, decide_eq_true_eq] at this
    exact ⟨this.1.1, this.1.2, this.2⟩
  have hne : ('=' : Char) ∉ t.name := fun hm => (hname _ hm).2.1 rfl
  unfold tagStr
  by_cases hv : t.value ≠ [] ∨ t.hasValue = true
  · rw [if_pos (by simpa using hv)]
    unfold tagParse
    rw [partitionStr_append hne]
    simp only
    by_cases hval : t.value = []
    · have : escape t.value = [] := (escape_eq_nil_iff t.value).mpr hval
      rw [this]
      rcases hv with hv | hv
      · exact absurd hval hv
      · simp [hval, hv]
    · have : escape t.value ≠ [] := fun hh => hval ((escape_eq_nil_iff t.value).mp hh)
      rw [if_neg this, unescape_escape]
      simp [hval]
  · rw [if_neg (by simpa using hv)]
    push_neg at hv
    obtain ⟨hval, hhv⟩ := hv
    unfold tagParse
    rw [partitionStr_not_mem hne]
    have hhv2 : t.hasValue = false := by simpa using hhv
    simp [hval, hhv2]

theorem tagStr_ne_nil {t : MessageTag} (h : cleanTagName t.name = true) :
    tagStr t ≠ [] := by
  have hname : t.name ≠ [] := by
    simp only [cleanTagName, Bool.and_eq_true, Bool.not_eq_true', List.isEmpty_eq_false] at h
    exact h.1
  unfold tagStr
  split_ifs with hc
  · simp
  · exact hname

theorem mem_tagStr {c : Char} {t : MessageTag} (hn : cleanTagName t.name = true)
    (h : c ∈ tagStr t) : c ≠ ';' ∧ c ≠ ' ' := by
  have hname : ∀ x ∈ t.name, x ≠ ';' ∧ x ≠ '=' ∧ x ≠ ' ' := by
    intro x hx
    simp only [cleanTagName, Bool.and_eq_true, List.all_eq_true] at hn
    have := hn.2 x hx
    simp only [Bool.and_eq_true, decide_eq_true_eq] at this
    exact ⟨this.1.1, this.1.2, this.2⟩
  unfold tagStr at h
  split_ifs at h
  · rw [List.mem_append] at h
    rcases h with h | h
    · exact ⟨(hname c h).1, (hname c h).2.2⟩
    · rw [List.mem_cons] at h
      rcases h with rfl | h
      · exact ⟨by decide, by decide⟩
      · have := mem_escape h
        exact ⟨this.2, this.1⟩
  · exact ⟨(hname c h).1, (hname c h).2.2⟩

/-! `TagList` is a Python `dict` keyed by tag name; it is modelled as the
list of its entries in insertion order (keys unique by construction). -/

/-- Lookup of a tag by name (first entry with that name). -/
def lookupTag (n : Str) : List MessageTag → Option MessageTag
  | [] => none
  | t :: ts => if t.name = n then some t else lookupTag n ts

/-- One `dict.__setitem__` step of `TagList.__init__`: replace the entry with
the same name in place, or append at the end. -/
def dictInsert (l : List MessageTag) (t : MessageTag) : List MessageTag :=
  match l with
  | [] => [t]
  | x :: xs => if x.name = t.name then t :: xs else x :: dictInsert xs t

/-- `TagList.__init__(tags)`: insert every tag, keyed by name. -/
def tagListFrom (tags : List MessageTag) : List MessageTag :=
  tags.foldl dictInsert []

/-- `TagList.parse`: split on `;`, drop empty segments, parse each tag. -/
def tagListParse (text : Str) : List MessageTag :=
  tagListFrom (((pySplit ';' text).filter (· ≠ [])).map tagParse)

/-- `TagList.__str__`: join the rendered tags with `;`. -/
def tagListStr (l : List MessageTag) : Str := joinSep ';' (l.map tagStr)

theorem dictInsert_not_mem {l : List MessageTag} {t : MessageTag}
    (h : lookupTag t.name l = none) : dictInsert l t = l ++ [t] := by
  induction l with
  | nil => rfl
  | cons x xs ih =>
    simp only [lookupTag] at h
    by_cases hx : x.name = t.name
    · rw [if_pos hx] at h
      exact Option.noConfusion h
    · rw [if_neg hx] at h
      simp only [dictInsert, if_neg hx, ih h, List.cons_append]

theorem lookupTag_append_none {n : Str} {l : List MessageTag} {t : MessageTag}
    (hl : lookupTag n l = none) (ht : t.name ≠ n) :
    lookupTag n (l ++ [t]) = none := by
  induction l with
  | nil => simp [lookupTag, ht]
  | cons x xs ih =>
    simp only [lookupTag] at hl
    by_cases hx : x.name = n
    · rw [if_pos hx] at hl
      exact Option.noConfusion hl
    · rw [if_neg hx] at hl
      rw [List.cons_append]
      simp only [lookupTag, if_neg hx]
      exact ih hl

theorem tagListFrom_aux {l : List MessageTag} (acc : List MessageTag)
    (hn : (l.map (fun t => t.name)).Nodup)
    (hd : ∀ t ∈ l, lookupTag t.name acc = none) :
    l.foldl dictInsert acc = acc ++ l := by
  induction l generalizing acc with
  | nil => simp
  | cons t ts ih =>
    rw [List.foldl_cons, dictInsert_not_mem (hd t (by simp))]
    rw [List.map_cons, List.nodup_cons] at hn
    have step : ∀ u ∈ ts, lookupTag u.name (acc ++ [t]) = none := by
      intro u hu
      refine lookupTag_append_none (hd u (by simp [hu])) ?_
      intro hc
      exact hn.1 (hc ▸ List.mem_map_of_mem (fun t => t.name) hu)
    rw [ih (acc ++ [t]) hn.2 step]
    simp

theorem tagListFrom_nodup {l : List MessageTag}
    (hn : (l.map (fun t => t.name)).Nodup) : tagListFrom l = l := by
  have := tagListFrom_aux ([] : List MessageTag) hn (by intro t _; rfl)
  simpa [tagListFrom] using this

/-- Serialization followed by parsing reproduces a tag list with clean,
distinct names entry by entry (the `has_value` flag of an entry whose value
is non-empty may be promoted to `true`). -/
theorem tagListParse_tagListStr {l : List MessageTag}
    (hc : ∀ t ∈ l, cleanTagName t.name = true)
    (hn : (l.map (fun t => t.name)).Nodup) :
    tagListParse (tagListStr l) =
      l.map (fun t => ⟨t.name, t.value, decide (t.value ≠ []) || t.hasValue⟩) := by
  cases l with
  | nil => rfl
  | cons t ts =>
    have hsegs : ∀ s ∈ (t :: ts).map tagStr, (';' : Char) ∉ s := by
      intro s hs
      rw [List.mem_map] at hs
      obtain ⟨u, hu, rfl⟩ := hs
      intro hmem
      exact (mem_tagStr (hc u hu) hmem).1 rfl
    unfold tagListParse tagListStr
    rw [List.map_cons, pySplit_join (tagStr t) (ts.map tagStr)
      (hsegs _ (by simp)) (fun s hs => hsegs s (by simp [hs]))]
    have hfilter :
        ((tagStr t :: ts.map tagStr).filter (· ≠ [])) = tagStr t :: ts.map tagStr := by
      rw [List.filter_eq_self]
      intro s hs
      rw [List.mem_cons] at hs
      rcases hs with rfl | hs
      · simpa using tagStr_ne_nil (hc t (by simp))
      · rw [List.mem_map] at hs
        obtain ⟨u, hu, rfl⟩ := hs
        simpa using tagStr_ne_nil (hc u (by simp [hu]))
    rw [hfilter]
    have hmap :
        ((tagStr t :: ts.map tagStr).map tagParse) =
          (t :: ts).map (fun u => (⟨u.name, u.value, decide (u.value ≠ []) || u.hasValue⟩ : MessageTag)) := by
      have hcons : tagStr t :: ts.map tagStr = (t :: ts).map tagStr := rfl
      rw [hcons, List.map_map]
      apply List.map_congr_left
      intro u hu
      exact tagParse_tagStr (hc u hu)
    rw [hmap]
    apply tagListFrom_nodup
    rw [List.map_map]
    have : ((t :: ts).map
        ((fun t => t.name) ∘ fun u => (⟨u.name, u.value, decide (u.value ≠ []) || u.hasValue⟩ : MessageTag))) =
        (t :: ts).map (fun t => t.name) := by
      apply List.map_congr_left
      intro u _
      rfl
    rw [this]
    exact hn

/-- Python `dict.__eq__` on two tag lists with value comparison by
`MessageTag.__eq__` (which compares name and value, ignoring `has_value`). -/
def tagDictEq (a b : List MessageTag) : Bool :=
  a.length = b.length &&
    a.all (fun t =>
      match lookupTag t.name b with
      | some u => decide (t.value = u.value)
      | none => false)

theorem lookupTag_of_nodup {l : List MessageTag} {u : MessageTag}
    (hu : u ∈ l) (hn : (l.map (fun t => t.name)).Nodup) :
    lookupTag u.name l = some u := by
  induction l with
  | nil => simp at hu
  | cons x xs ih =>
    rw [List.map_cons, List.nodup_cons] at hn
    rw [List.mem_cons] at hu
    rcases hu with rfl | hu
    · simp [lookupTag]
    · have hxname : x.name ≠ u.name := fun hcontra =>
        hn.1 (hcontra ▸ List.mem_map_of_mem (fun t => t.name) hu)
      simp only [lookupTag, if_neg hxname]
      exact ih hu hn.2

theorem tagDictEq_of_map {l : List MessageTag}
    (f : MessageTag → MessageTag)
    (hf : ∀ t, (f t).name = t.name ∧ (f t).value = t.value)
    (hn : (l.map (fun t => t.name)).Nodup) :
    tagDictEq (l.map f) l = true := by
  unfold tagDictEq
  rw [Bool.and_eq_true]
  constructor
  · simp
  · rw [List.all_eq_true]
    intro t ht
    rw [List.mem_map] at ht
    obtain ⟨u, hu, rfl⟩ := ht
    have hlook : lookupTag (f u).name l = some u := by
      rw [(hf u).1]
      exact lookupTag_of_nodup hu hn
    rw [hlook]
    simp [(hf u).2]

/-! ### Prefix (`Prefix` of `irclib/parser.py`)

`Prefix.parse` applies the Python regex
`^:?(?P<nick>.*?)(?:!(?P<user>.*?))?(?:@(?P<host>.*?))?$` with `re.match`.
The backtracking engine is embedded exactly: lazy groups prefer the
shortest match, optional groups prefer to participate, `.` does not match a
newline, and `$` matches at the end of the string or before one trailing
newline.  When the regex fails (which happens for inputs with an interior
newline) `Prefix.parse` raises `ParseError`, modelled as `Except.error`. -/

structure Pfx where
  nick : Str
  user : Str
  host : Str
deriving DecidableEq, Repr

/-- `Prefix.mask`: `nick`, then `!user` when the user is non-empty, then
`@host` when the host is non-empty. -/
def pfxMask (p : Pfx) : Str :=
  p.nick ++ (if p.user = [] then [] else '!' :: p.user) ++
    (if p.host = [] then [] else '@' :: p.host)

/-- `Prefix.__bool__`: `any(self)` over `(nick, user, host)`. -/
def pfxBool (p : Pfx) : Bool :=
  !p.nick.isEmpty || !p.user.isEmpty || !p.host.isEmpty

/-- Does `$` match with the suffix `r` remaining (end of input, or exactly
one trailing newline)? -/
def dollarAt (r : Str) : Bool := r = [] || r = ['\n']

/-- Match `(?P<host>.*?)$` against all of `r`: the lazy group takes
everything up to the end, or everything up to one trailing newline; it fails
when an interior newline remains. -/
def hostMatch (r : Str) : Option Str :=
  if '\n' ∉ r then some r
  else if r.getLast? = some '\n' ∧ '\n' ∉ r.dropLast then some r.dropLast
  else none

/-- Match `(?P<user>.*?)(?:@(?P<host>.*?))?$` against all of `r1`, `acc`
holding the reversed user characters consumed so far.  At each position the
engine first tries `@host`, then `$`, then extends the lazy user group. -/
def userSearch (acc : Str) : Str → Option (Str × Option Str)
  | [] => some (acc.reverse, none)
  | c :: rest =>
    match (if c = '@' then hostMatch rest else none) with
    | some h => some (acc.reverse, some h)
    | none =>
      if dollarAt (c :: rest) then some (acc.reverse, none)
      else if c = '\n' then none
      else userSearch (c :: acc) rest

/-- Match `(?P<nick>.*?)(?:!(?P<user>.*?))?(?:@(?P<host>.*?))?$` against all
of `t`: at each position the engine tries `!user...`, then `@host`, then
`$`, then extends the lazy nick group. -/
def nickSearch (acc : Str) : Str → Option (Str × Option Str × Option Str)
  | [] => some (acc.reverse, none, none)
  | c :: rest =>
    match (if c = '!' then userSearch [] rest else none) with
    | some (u, h) => some (acc.reverse, some u, h)
    | none =>
      match (if c = '@' then hostMatch rest else none) with
      | some h => some (acc.reverse, none, some h)
      | none =>
        if dollarAt (c :: rest) then some (acc.reverse, none, none)
        else if c = '\n' then none
        else nickSearch (c :: acc) rest

/-- `PREFIX_RE.match`: the greedy `:?` consumes one leading colon when
possible, backtracking to the un-consumed alternative on failure. -/
def pfxReMatch (s : Str) : Option (Str × Option Str × Option Str) :=
  match s with
  | ':' :: rest =>
    match nickSearch [] rest with
    | some r => some r
    | none => nickSearch [] s
  | _ => nickSearch [] s

/-- `Prefix.parse`: empty text gives an all-empty prefix; otherwise the
regex is applied, a failed match raises `ParseError`, and absent groups
become empty strings (`nick or ""` etc. in `Prefix.__init__`). -/
def pfxParse (text : Str) : Except Unit Pfx :=
  if text = [] then .ok ⟨[], [], []⟩
  else
    match pfxReMatch text with
    | none => .error ()
    | some (n, u, h) => .ok ⟨n, u.getD [], h.getD []⟩

theorem userSearch_walk {u : Str} (hu : ∀ c ∈ u, c ≠ '@' ∧ c ≠ '\n')
    (acc tail : Str) : userSearch acc (u ++ tail) = userSearch (u.reverse ++ acc) tail := by
  induction u generalizing acc with
  | nil => simp
  | cons c u2 ih =>
    have hc := hu c (by simp)
    have hrest : ∀ x ∈ u2, x ≠ '@' ∧ x ≠ '\n' := fun x hx => hu x (by simp [hx])
    rw [List.cons_append]
    rw [userSearch]
    rw [if_neg hc.1]
    have hdollar : dollarAt (c :: (u2 ++ tail)) = false := by
      unfold dollarAt
      simp only [Bool.or_eq_false_iff, decide_eq_false_iff_not]
      constructor
      · simp
      · intro hcontra
        rw [List.cons_eq_cons] at hcontra
        exact hc.2 hcontra.1
    rw [hdollar]
    simp only [Bool.false_eq_true, if_false, if_neg hc.2]
    rw [ih hrest]
    simp

theorem nickSearch_walk {n : Str} (hn : ∀ c ∈ n, c ≠ '!' ∧ c ≠ '@' ∧ c ≠ '\n')
    (acc tail : Str) : nickSearch acc (n ++ tail) = nickSearch (n.reverse ++ acc) tail := by
  induction n generalizing acc with
  | nil => simp
  | cons c n2 ih =>
    have hc := hn c (by simp)
    have hrest : ∀ x ∈ n2, x ≠ '!' ∧ x ≠ '@' ∧ x ≠ '\n' := fun x hx => hn x (by simp [hx])
    rw [List.cons_append]
    rw [nickSearch]
    rw [if_neg hc.1, if_neg hc.2.1]
    have hdollar : dollarAt (c :: (n2 ++ tail)) = false := by
      unfold dollarAt
      simp only [Bool.or_eq_false_iff, decide_eq_false_iff_not]
      constructor
      · simp
      · intro hcontra
        rw [List.cons_eq_cons] at hcontra
        exact hc.2.2 hcontra.1
    rw [hdollar]
    simp only [Bool.false_eq_true, if_false, if_neg hc.2.2]
    rw [ih hrest]
    simp

/-- Prefixes whose mask re-parses to the same components: no space (the
message-level separator) or newline anywhere, the nick free of `!` and `@`
and not starting with `:`, the user free of `@`. -/
def wfPfx (p : Pfx) : Bool :=
  p.nick.all (fun c => c ≠ ' ' && c ≠ '\n' && c ≠ '!' && c ≠ '@') &&
  decide (p.nick.head? ≠ some ':') &&
  p.user.all (fun c => c ≠ ' ' && c ≠ '\n' && c ≠ '@') &&
  p.host.all (fun c => c ≠ ' ' && c ≠ '\n')

theorem wfPfx_spec {p : Pfx} (h : wfPfx p = true) :
    (∀ c ∈ p.nick, c ≠ ' ' ∧ c ≠ '\n' ∧ c ≠ '!' ∧ c ≠ '@') ∧
    p.nick.head? ≠ some ':' ∧
    (∀ c ∈ p.user, c ≠ ' ' ∧ c ≠ '\n' ∧ c ≠ '@') ∧
    (∀ c ∈ p.host, c ≠ ' ' ∧ c ≠ '\n') := by
  unfold wfPfx at h
  simp only [Bool.and_eq_true, List.all_eq_true, Bool.and_eq_true, decide_eq_true_eq] at h
  obtain ⟨⟨⟨h1, h2⟩, h3⟩, h4⟩ := h
  refine ⟨fun c hc => ?_, ?_, fun c hc => ?_, fun c hc => ?_⟩
  · have := h1 c hc
    tauto
  · exact h2
  · have := h3 c hc
    tauto
  · exact h4 c hc

theorem pfxReMatch_no_colon {s : Str} (h : s.head? ≠ some ':') :
    pfxReMatch s = nickSearch [] s := by
  cases s with
  | nil => rfl
  | cons c r =>
    have hc : c ≠ ':' := by
      intro hcontra
      exact h (by rw [hcontra]; rfl)
    rw [pfxReMatch.eq_def]
    split
    · rename_i rest heq
      rw [List.cons_eq_cons] at heq
      exact absurd heq.1 hc
    · rfl

theorem pfxParse_mask {p : Pfx} (h : wfPfx p = true) :
    pfxParse (pfxMask p) = .ok p := by
  obtain ⟨hn, hcolon, hu, hh⟩ := wfPfx_spec h
  have hnWalk : ∀ c ∈ p.nick, c ≠ '!' ∧ c ≠ '@' ∧ c ≠ '\n' :=
    fun c hc => ⟨(hn c hc).2.2.1, (hn c hc).2.2.2, (hn c hc).2.1⟩
  have huWalk : ∀ c ∈ p.user, c ≠ '@' ∧ c ≠ '\n' :=
    fun c hc => ⟨(hu c hc).2.2, (hu c hc).2.1⟩
  have hhostNl : ('\n' : Char) ∉ p.host := fun hc => (hh _ hc).2 rfl
  have hhead : (pfxMask p).head? ≠ some ':' := by
    unfold pfxMask
    cases hnick : p.nick with
    | cons c n2 =>
      rw [hnick] at hcolon
      simpa using hcolon
    | nil =>
      by_cases hus : p.user = []
      · by_cases hho : p.host = []
        · simp [hus, hho]
        · simp [hus, hho]
      · simp [hus]
  by_cases hmask : pfxMask p = []
  · have hcomp : p.nick = [] ∧ p.user = [] ∧ p.host = [] := by
      unfold pfxMask at hmask
      rw [List.append_eq_nil, List.append_eq_nil] at hmask
      refine ⟨hmask.1.1, ?_, ?_⟩
      · by_cases hus : p.user = []
        · exact hus
        · rw [if_neg hus] at hmask
          exact absurd hmask.1.2 (by simp)
      · by_cases hho : p.host = []
        · exact hho
        · rw [if_neg hho] at hmask
          exact absurd hmask.2 (by simp)
    unfold pfxParse
    rw [if_pos hmask]
    obtain ⟨h1, h2, h3⟩ := hcomp
    cases p
    simp_all
  · unfold pfxParse
    rw [if_neg hmask, pfxReMatch_no_colon hhead]
    unfold pfxMask
    by_cases hus : p.user = []
    · by_cases hho : p.host = []
      · rw [if_pos hus, if_pos hho, List.append_nil, List.append_nil]
        have hwalk := nickSearch_walk hnWalk [] []
        simp only [List.append_nil] at hwalk
        rw [hwalk]
        simp only [nickSearch, List.append_nil, List.reverse_reverse]
        cases p
        simp_all
      · rw [if_pos hus, if_neg hho, List.append_nil]
        rw [nickSearch_walk hnWalk [] ('@' :: p.host)]
        rw [nickSearch]
        have h1 : (if ('@' : Char) = '!' then userSearch [] p.host else none) = none := by
          simp
        rw [h1]
        have h2 : (if ('@' : Char) = '@' then hostMatch p.host else none) =
            some p.host := by
          rw [if_pos rfl]
          unfold hostMatch
          rw [if_pos hhostNl]
        rw [h2]
        simp only [Except.ok.injEq, Option.getD]
        cases p
        simp_all
    · by_cases hho : p.host = []
      · rw [if_neg hus, if_pos hho, List.append_nil]
        rw [nickSearch_walk hnWalk [] ('!' :: p.user)]
        rw [nickSearch]
        have h1 : (if ('!' : Char) = '!' then userSearch [] p.user else none) =
            some (p.user, none) := by
          rw [if_pos rfl]
          have := userSearch_walk huWalk [] []
          rw [List.append_nil] at this
          rw [this]
          simp [userSearch]
        rw [h1]
        simp only [Except.ok.injEq, Option.getD]
        cases p
        simp_all
      · rw [if_neg hus, if_neg hho]
        rw [List.append_assoc, List.cons_append]
        rw [nickSearch_walk hnWalk [] ('!' :: (p.user ++ '@' :: p.host))]
        rw [nickSearch]
        have h1 : (if ('!' : Char) = '!' then
            userSearch [] (p.user ++ '@' :: p.host) else none) =
            some (p.user, some p.host) := by
          rw [if_pos rfl]
          rw [userSearch_walk huWalk [] ('@' :: p.host)]
          rw [userSearch]
          have h2 : (if ('@' : Char) = '@' then hostMatch p.host else none) =
              some p.host := by
            rw [if_pos rfl]
            unfold hostMatch
            rw [if_pos hhostNl]
          rw [h2]
          simp
        rw [h1]
        simp

/-! ### Parameter list (`ParamList` of `irclib/parser.py`) -/

structure ParamList where
  items : List Str
  hasTrail : Bool
deriving DecidableEq, Repr

/-- The scanning loop of `ParamList.parse` (`while text: ...` with
`text.partition(PARAM_SEP)`), one character at a time.  `acc` is `none` at
a token boundary (the loop head, where a leading `:` makes the rest the
trailing parameter and an empty token is skipped) and `some` of the
reversed characters of the token being read otherwise. -/
def paramsScan (acc : Option Str) : Str → List Str × Bool
  | [] =>
    (match acc with
     | some a => ([a.reverse], false)
     | none => ([], false))
  | c :: rest =>
    match acc with
    | none =>
      if c = ':' then ([rest], true)
      else if c = ' ' then paramsScan none rest
      else paramsScan (some [c]) rest
    | some a =>
      if c = ' ' then
        let p := paramsScan none rest
        (a.reverse :: p.1, p.2)
      else paramsScan (some (c :: a)) rest

/-- `ParamList.parse`: a token starting with `:` makes the rest (colon
excluded) the final, trailing parameter; other tokens end at a space and
empty tokens are skipped. -/
def paramsParse (text : Str) : List Str × Bool := paramsScan none text

theorem paramsScan_walk {a : Str} (ha : (' ' : Char) ∉ a) (acc rest : Str) :
    paramsScan (some acc) (a ++ rest) = paramsScan (some (a.reverse ++ acc)) rest := by
  induction a generalizing acc with
  | nil => simp
  | cons c a2 ih =>
    simp only [List.mem_cons, not_or] at ha
    rw [List.cons_append]
    simp only [paramsScan, if_neg (Ne.symm ha.1)]
    rw [ih ha.2]
    simp

/-- The forced-trailing test of `ParamList.__str__`: the final parameter
contains a space, starts with `:`, or is empty. -/
def needsTrail (lst : Str) : Bool :=
  lst.contains ' ' || lst.head? = some ':' || lst.isEmpty

/-- `ParamList.__str__`: empty list renders empty; a trailing (stored flag
or forced) final parameter gets a `:` sentinel; pieces join with spaces. -/
def paramsStr (ps : ParamList) : Str :=
  if ps.items = [] then []
  else if ps.hasTrail || needsTrail (ps.items.getLastD []) then
    joinSep ' ' (ps.items.dropLast ++ [':' :: ps.items.getLastD []])
  else joinSep ' ' ps.items

/-- Parameters that scan as single tokens: non-empty, no space, and not
starting with the trailing sentinel. -/
def cleanParam (s : Str) : Bool :=
  !s.isEmpty && s.all (fun c => c ≠ ' ') && decide (s.head? ≠ some ':')

theorem cleanParam_spec {s : Str} (h : cleanParam s = true) :
    s ≠ [] ∧ (' ' : Char) ∉ s ∧ s.head? ≠ some ':' := by
  unfold cleanParam at h
  simp only [Bool.and_eq_true, Bool.not_eq_true', List.isEmpty_eq_false,
    List.all_eq_true, decide_eq_true_eq] at h
  exact ⟨h.1.1, fun hc => by simpa using h.1.2 ' ' hc, h.2⟩

theorem joinSep_cons_ne {sep : Char} {a : Str} {rest : List Str} (h : rest ≠ []) :
    joinSep sep (a :: rest) = a ++ sep :: joinSep sep rest := by
  cases rest with
  | nil => exact absurd rfl h
  | cons b t => rfl

theorem paramsParse_step {a : Str} (ha : cleanParam a = true) (x : Str) :
    paramsParse (a ++ ' ' :: x) =
      (a :: (paramsParse x).1, (paramsParse x).2) := by
  obtain ⟨hne, hsp, hcol⟩ := cleanParam_spec ha
  cases a with
  | nil => exact absurd rfl hne
  | cons c a2 =>
    have hc : c ≠ ':' := by
      intro hcontra
      exact hcol (by rw [hcontra]; rfl)
    simp only [List.mem_cons, not_or] at hsp
    rw [List.cons_append]
    unfold paramsParse
    simp only [paramsScan, if_neg hc, if_neg (Ne.symm hsp.1)]
    rw [paramsScan_walk hsp.2]
    simp only [paramsScan]
    simp

theorem paramsParse_single {a : Str} (ha : cleanParam a = true) :
    paramsParse a = ([a], false) := by
  obtain ⟨hne, hsp, hcol⟩ := cleanParam_spec ha
  cases a with
  | nil => exact absurd rfl hne
  | cons c a2 =>
    have hc : c ≠ ':' := by
      intro hcontra
      exact hcol (by rw [hcontra]; rfl)
    simp only [List.mem_cons, not_or] at hsp
    have ha2 := paramsScan_walk hsp.2 [c] ([] : Str)
    rw [List.append_nil] at ha2
    unfold paramsParse
    simp only [paramsScan, if_neg hc, if_neg (Ne.symm hsp.1)]
    rw [ha2]
    simp [paramsScan]

theorem paramsParse_nil : paramsParse [] = ([], false) := rfl

theorem paramsParse_join_clean {items : List Str}
    (h : ∀ s ∈ items, cleanParam s = true) :
    paramsParse (joinSep ' ' items) = (items, false) := by
  induction items with
  | nil => exact paramsParse_nil
  | cons a rest ih =>
    cases rest with
    | nil => exact paramsParse_single (h a (by simp))
    | cons b t =>
      rw [joinSep_cons_ne (by simp)]
      rw [paramsParse_step (h a (by simp))]
      rw [ih (fun s hs => h s (by simp [List.mem_cons] at hs ⊢; tauto))]

theorem paramsParse_join_trail {pre : List Str} (lst : Str)
    (h : ∀ s ∈ pre, cleanParam s = true) :
    paramsParse (joinSep ' ' (pre ++ [':' :: lst])) = (pre ++ [lst], true) := by
  induction pre with
  | nil =>
    simp only [List.nil_append, joinSep]
    rfl
  | cons a pre2 ih =>
    rw [List.cons_append, joinSep_cons_ne (by simp)]
    rw [paramsParse_step (h a (by simp))]
    rw [ih (fun s hs => h s (by simp [hs]))]
    simp

theorem needsTrail_false_clean {lst : Str} (h : needsTrail lst = false) :
    cleanParam lst = true := by
  unfold needsTrail at h
  simp only [Bool.or_eq_false_iff] at h
  unfold cleanParam
  simp only [Bool.and_eq_true, Bool.not_eq_true', decide_eq_true_eq]
  refine ⟨⟨h.2, ?_⟩, ?_⟩
  · rw [List.all_eq_true]
    intro c hc
    simp only [decide_eq_true_eq]
    intro hcontra
    have hcon : lst.contains ' ' = true := by
      rw [List.contains_eq_any_beq, List.any_eq_true]
      exact ⟨c, hc, by simp [hcontra]⟩
    rw [h.1.1] at hcon
    exact Bool.noConfusion hcon
  · simpa using h.1.2

theorem dropLast_append_getLastD {a : Str} {rest : List Str} :
    (a :: rest).dropLast ++ [(a :: rest).getLastD []] = a :: rest := by
  induction rest generalizing a with
  | nil => rfl
  | cons b t ih => simpa using ih (a := b)

theorem paramsParse_paramsStr {ps : ParamList}
    (h : ∀ s ∈ ps.items.dropLast, cleanParam s = true) :
    (paramsParse (paramsStr ps)).1 = ps.items := by
  rcases hitems : ps.items with _ | ⟨a, rest⟩
  · unfold paramsStr
    rw [hitems, if_pos rfl, paramsParse_nil]
  · have hsplit : (a :: rest).dropLast ++ [(a :: rest).getLastD []] = a :: rest :=
      dropLast_append_getLastD
    have hpre : ∀ s ∈ (a :: rest).dropLast, cleanParam s = true := by
      rw [← hitems]
      exact h
    unfold paramsStr
    rw [hitems]
    rw [if_neg (by simp)]
    split_ifs with htr
    · rw [paramsParse_join_trail _ hpre]
      simpa using hsplit
    · simp only [Bool.or_eq_true, not_or, Bool.not_eq_true] at htr
      have hall : ∀ s ∈ a :: rest, cleanParam s = true := by
        intro s hs
        rw [← hsplit, List.mem_append] at hs
        rcases hs with hs | hs
        · exact hpre s hs
        · rw [List.mem_singleton] at hs
          rw [hs]
          exact needsTrail_false_clean htr.2
      rw [paramsParse_join_clean hall]

/-! ### Message (`Message` of `irclib/parser.py`) -/

structure Message where
  tags : Option (List MessageTag)
  pfx : Option Pfx
  command : Str
  parameters : ParamList
deriving DecidableEq, Repr

/-- Python `str.upper`, modelled character by character with
`Char.toUpper`.  `Char.toUpper` agrees with `str.upper` exactly on ASCII
strings (both map only `a`–`z`); outside ASCII `str.upper` applies the
full Unicode mapping, so every statement quantifying over commands goes
through `wfCommand`, which restricts them to ASCII. -/
def pyUpper (s : Str) : Str := s.map Char.toUpper

/-- One `if text.startswith(s): part, _, text = text.partition(" ")` step of
`Message.parse` (when the sentinel is absent, nothing is consumed). -/
def sentinelSplit (sentinel : Char) (text : Str) : Str × Str :=
  match text with
  | c :: _ =>
    if c = sentinel then
      let r := partitionStr ' ' text
      (r.1, r.2.2)
    else ([], text)
  | [] => ([], text)

/-- `Message.parse` (on text): take a leading `@...` span as tags and a
leading `:...` span as the prefix, each up to the first space; the next
token is the command, upper-cased; the rest is the parameter list.  An empty
tag/prefix span is distinct from an absent one.  A `ParseError` from
`Prefix.parse` propagates. -/
def messageParse (text : Str) : Except Unit Message :=
  let tSplit := sentinelSplit '@' text
  let pSplit := sentinelSplit ':' tSplit.2
  let cSplit := partitionStr ' ' pSplit.2
  let tagsObj : Option (List MessageTag) :=
    match tSplit.1 with
    | [] => none
    | _ :: t => some (tagListParse t)
  match pSplit.1 with
  | [] =>
    let pp := paramsParse cSplit.2.2
    .ok ⟨tagsObj, none, pyUpper cSplit.1, ⟨pp.1, pp.2⟩⟩
  | _ :: t =>
    match pfxParse t with
    | .error e => .error e
    | .ok pobj =>
      let pp := paramsParse cSplit.2.2
      .ok ⟨tagsObj, some pobj, pyUpper cSplit.1, ⟨pp.1, pp.2⟩⟩

/-- `Message.__str__`: render `@tags`, `:prefix`, the command and the
parameters, keep the non-empty pieces and join them with single spaces. -/
def messageStr (m : Message) : Str :=
  let tagsPart : Str :=
    match m.tags with
    | none => []
    | some l => '@' :: tagListStr l
  let pfxPart : Str :=
    match m.pfx with
    | none => []
    | some p => ':' :: pfxMask p
  joinSep ' '
    (([tagsPart, pfxPart, m.command, paramsStr m.parameters]).filter (· ≠ []))

/-- Equality of two optional values, as Python `==` on a tuple slot: both
absent, or both present and equal. -/
def optEq (eq : α → α → Bool) : Option α → Option α → Bool
  | none, none => true
  | some a, some b => eq a b
  | _, _ => false

/-- `Message.__eq__` via `as_tuple`: tags compare as dicts (name to value,
`has_value` ignored), prefixes by their three components, commands as
strings, parameter lists by their items (`has_trail` ignored, as
`ParamList` equality is plain `list` equality). -/
def msgEq (a b : Message) : Bool :=
  optEq tagDictEq a.tags b.tags &&
  optEq (fun p q => decide (p = q)) a.pfx b.pfx &&
  decide (a.command = b.command) &&
  decide (a.parameters.items = b.parameters.items)

/-- Did parsing `s` produce a message equal (in the `Message.__eq__` sense)
to `m`?  False when parsing raises. -/
def parsesEq (s : Str) (m : Message) : Bool :=
  match messageParse s with
  | .ok m2 => msgEq m2 m
  | .error _ => false

/-- Commands that serialize as a single token and re-parse unchanged:
non-empty, upper-case invariant, no space, no leading `@` or `:`, and
ASCII-only (on ASCII text the `pyUpper` model coincides with Python
`str.upper`, so upper-case invariance in the model is upper-case
invariance in the program). -/
def wfCommand (c : Str) : Bool :=
  !c.isEmpty && decide (pyUpper c = c) && c.all (fun x => x ≠ ' ') &&
    decide (c.head? ≠ some '@') && decide (c.head? ≠ some ':') &&
    c.all (fun x => x.toNat ≤ 0x7F)

/-- Tag lists whose serialization re-parses entry by entry: clean names,
no duplicate names. -/
def wfTags : Option (List MessageTag) → Bool
  | none => true
  | some l => l.all (fun t => cleanTagName t.name) &&
      decide ((l.map (fun t => t.name)).Nodup)

/-- Well-formed messages: the round-trip domain.  All parameters before the
last scan as single tokens; the final parameter is unrestricted (the
trailing sentinel protects it). -/
def wfMessage (m : Message) : Bool :=
  wfTags m.tags &&
  (match m.pfx with
   | none => true
   | some p => wfPfx p) &&
  wfCommand m.command &&
  m.parameters.items.dropLast.all cleanParam

theorem sentinelSplit_hit {sentinel : Char} {part : Str}
    (hsp : (' ' : Char) ∉ part) (hhead : part.head? = some sentinel) (rest : Str) :
    sentinelSplit sentinel (part ++ ' ' :: rest) = (part, rest) := by
  cases part with
  | nil => exact absurd hhead (by simp)
  | cons c p2 =>
    have hc : c = sentinel := by simpa using hhead
    rw [List.cons_append]
    simp only [sentinelSplit]
    rw [if_pos hc]
    have hpart := partitionStr_append (a := c :: p2) (b := rest) hsp
    rw [List.cons_append] at hpart
    simp [hpart]

theorem sentinelSplit_hit_last {sentinel : Char} {part : Str}
    (hsp : (' ' : Char) ∉ part) (hhead : part.head? = some sentinel) :
    sentinelSplit sentinel part = (part, []) := by
  cases part with
  | nil => exact absurd hhead (by simp)
  | cons c p2 =>
    have hc : c = sentinel := by simpa using hhead
    simp only [sentinelSplit]
    rw [if_pos hc]
    simp [partitionStr_not_mem hsp]

theorem sentinelSplit_miss {sentinel : Char} {text : Str}
    (hhead : text.head? ≠ some sentinel) :
    sentinelSplit sentinel text = ([], text) := by
  cases text with
  | nil => rfl
  | cons c p2 =>
    have hc : c ≠ sentinel := by
      intro hcontra
      exact hhead (by simp [hcontra])
    simp only [sentinelSplit]
    rw [if_neg hc]

theorem wfCommand_spec {c : Str} (h : wfCommand c = true) :
    c ≠ [] ∧ pyUpper c = c ∧ (' ' : Char) ∉ c ∧
      c.head? ≠ some '@' ∧ c.head? ≠ some ':' := by
  unfold wfCommand at h
  simp only [Bool.and_eq_true, Bool.not_eq_true', List.isEmpty_eq_false,
    List.all_eq_true, decide_eq_true_eq] at h
  refine ⟨h.1.1.1.1.1, h.1.1.1.1.2, ?_, h.1.1.2, h.1.2⟩
  intro hmem
  have := h.1.1.1.2 ' ' hmem
  simp at this

theorem paramsStr_nil_of_items_nil {pl : ParamList} (h : pl.items = []) :
    paramsStr pl = [] := by
  unfold paramsStr
  rw [if_pos h]

theorem paramsStr_ne_nil_of_items {pl : ParamList} {a : Str} {rest : List Str}
    (h : pl.items = a :: rest) : paramsStr pl ≠ [] := by
  unfold paramsStr
  rw [if_neg (by simp [h])]
  split_ifs with htr
  · rcases hd : pl.items.dropLast with _ | ⟨x, xs⟩
    · simp [joinSep]
    · rw [List.cons_append, joinSep_cons_ne (by simp)]
      simp
  · rw [h]
    cases rest with
    | nil =>
      simp only [Bool.or_eq_true, not_or, Bool.not_eq_true] at htr
      have := htr.2
      unfold needsTrail at this
      simp only [Bool.or_eq_false_iff] at this
      have hlast : pl.items.getLastD [] = a := by rw [h]; rfl
      rw [hlast] at this
      simp only [joinSep]
      simpa using this.2
    | cons b t => rw [joinSep_cons_ne (by simp)]; simp

/-- Reading the command token and the parameter text out of the tail of the
line reproduces the command and the parameter items. -/
theorem coreParse {c : Str} {pl : ParamList} (hc : wfCommand c = true)
    (hpl : ∀ s ∈ pl.items.dropLast, cleanParam s = true) :
    pyUpper (partitionStr ' ' (joinSep ' ' ([c, paramsStr pl].filter (· ≠ [])))).1 = c ∧
    (paramsParse (partitionStr ' ' (joinSep ' ' ([c, paramsStr pl].filter (· ≠ [])))).2.2).1 =
      pl.items ∧
    (joinSep ' ' ([c, paramsStr pl].filter (· ≠ []))).head? = c.head? := by
  obtain ⟨hcne, hcup, hcsp, _, _⟩ := wfCommand_spec hc
  by_cases hps : paramsStr pl = []
  · have hfil : ([c, paramsStr pl].filter (· ≠ [])) = [c] := by
      simp [List.filter, hps, hcne]
    rw [hfil]
    have hjoin : joinSep ' ' [c] = c := rfl
    rw [hjoin, partitionStr_not_mem hcsp]
    have hitems : pl.items = [] := by
      by_contra hcontra
      rcases hx : pl.items with _ | ⟨a, rest⟩
      · exact hcontra hx
      · exact paramsStr_ne_nil_of_items hx hps
    simp [hcup, paramsParse_nil, hitems]
  · have hfil : ([c, paramsStr pl].filter (· ≠ [])) = [c, paramsStr pl] := by
      simp [List.filter, hps, hcne]
    rw [hfil]
    rw [joinSep_cons_ne (by simp)]
    have hjoin : joinSep ' ' [paramsStr pl] = paramsStr pl := rfl
    rw [hjoin, partitionStr_append hcsp]
    refine ⟨by simp [hcup], by simp [paramsParse_paramsStr hpl], ?_⟩
    cases c with
    | nil => exact absurd rfl hcne
    | cons x xs => rfl

theorem pfxMask_no_space {p : Pfx} (h : wfPfx p = true) :
    (' ' : Char) ∉ pfxMask p := by
  obtain ⟨hn, _, hu, hh⟩ := wfPfx_spec h
  unfold pfxMask
  intro hmem
  rw [List.mem_append, List.mem_append] at hmem
  rcases hmem with (hmem | hmem) | hmem
  · exact (hn ' ' hmem).1 rfl
  · by_cases hus : p.user = []
    · rw [if_pos hus] at hmem
      simp at hmem
    · rw [if_neg hus] at hmem
      rw [List.mem_cons] at hmem
      rcases hmem with hmem | hmem
      · exact absurd hmem.symm (by decide)
      · exact (hu ' ' hmem).1 rfl
  · by_cases hho : p.host = []
    · rw [if_pos hho] at hmem
      simp at hmem
    · rw [if_neg hho] at hmem
      rw [List.mem_cons] at hmem
      rcases hmem with hmem | hmem
      · exact absurd hmem.symm (by decide)
      · exact (hh ' ' hmem).1 rfl

theorem tagListStr_no_space {l : List MessageTag}
    (hc : ∀ t ∈ l, cleanTagName t.name = true) :
    (' ' : Char) ∉ tagListStr l := by
  unfold tagListStr
  apply mem_joinSep
  · intro s hs
    rw [List.mem_map] at hs
    obtain ⟨u, hu, rfl⟩ := hs
    intro hmem
    exact (mem_tagStr (hc u hu) hmem).2 rfl
  · decide

theorem filter_cons_ne {a : Str} {l : List Str} (h : a ≠ []) :
    (a :: l).filter (· ≠ []) = a :: l.filter (· ≠ []) := by
  simp [List.filter_cons, h]

theorem wfMessage_spec {m : Message} (h : wfMessage m = true) :
    wfTags m.tags = true ∧
    (∀ p, m.pfx = some p → wfPfx p = true) ∧
    wfCommand m.command = true ∧
    (∀ s ∈ m.parameters.items.dropLast, cleanParam s = true) := by
  unfold wfMessage at h
  simp only [Bool.and_eq_true, List.all_eq_true] at h
  refine ⟨h.1.1.1, ?_, h.1.2, h.2⟩
  intro p hp
  have := h.1.1.2
  rw [hp] at this
  exact this

theorem wfTags_spec {l : List MessageTag} (h : wfTags (some l) = true) :
    (∀ t ∈ l, cleanTagName t.name = true) ∧
      (l.map (fun t => t.name)).Nodup := by
  unfold wfTags at h
  simp only [Bool.and_eq_true, List.all_eq_true, decide_eq_true_eq] at h
  exact h

/-- The parsed tag object of a serialized well-formed tag list is
dict-equal to the original. -/
theorem tags_roundTrip {l : List MessageTag} (h : wfTags (some l) = true) :
    tagDictEq (tagListParse (tagListStr l)) l = true := by
  obtain ⟨hc, hn⟩ := wfTags_spec h
  rw [tagListParse_tagListStr hc hn]
  exact tagDictEq_of_map _ (fun t => ⟨rfl, rfl⟩) hn

theorem messageStr_parts (m : Message) :
    messageStr m = joinSep ' '
      ((match m.tags with
        | none => []
        | some l => ['@' :: tagListStr l]) ++
       (match m.pfx with
        | none => []
        | some p => [':' :: pfxMask p]) ++
       ([m.command, paramsStr m.parameters].filter (· ≠ []))) := by
  obtain ⟨mt, mp, mc, mpl⟩ := m
  cases mt <;> cases mp <;> simp [messageStr, List.filter_cons]

/-- Round trip for well-formed messages, assembled from the component
round trips. -/
theorem messageRoundTrip {m : Message} (h : wfMessage m = true) :
    parsesEq (messageStr m) m = true := by
  obtain ⟨htags, hpfxwf, hcmd, hparams⟩ := wfMessage_spec h
  obtain ⟨hcne, hcup, hcsp, hcat, hccol⟩ := wfCommand_spec hcmd
  obtain ⟨hcore1, hcore2, hcore3⟩ := coreParse hcmd hparams
  have hcoreL : ([m.command, paramsStr m.parameters].filter (· ≠ [])) =
      m.command :: ([paramsStr m.parameters].filter (· ≠ [])) :=
    filter_cons_ne hcne
  have hcoreNe : ([m.command, paramsStr m.parameters].filter (· ≠ [])) ≠ [] := by
    rw [hcoreL]
    simp
  have hcoreHeadAt : (joinSep ' ' ([m.command, paramsStr m.parameters].filter (· ≠ []))).head? ≠
      some '@' := by
    rw [hcore3]
    exact hcat
  have hcoreHeadCol : (joinSep ' ' ([m.command, paramsStr m.parameters].filter (· ≠ []))).head? ≠
      some ':' := by
    rw [hcore3]
    exact hccol
  rcases htagsCase : m.tags with _ | l <;> rcases hpfxCase : m.pfx with _ | p
  · -- no tags, no prefix
    have hstr : messageStr m =
        joinSep ' ' ([m.command, paramsStr m.parameters].filter (· ≠ [])) := by
      rw [messageStr_parts, htagsCase, hpfxCase]
      rfl
    have e1 := sentinelSplit_miss hcoreHeadAt
    have e2 := sentinelSplit_miss hcoreHeadCol
    unfold parsesEq
    rw [hstr]
    simp only [messageParse, e1, e2]
    simp only [msgEq, optEq, htagsCase, hpfxCase, hcore1, hcore2]
    simp
  · -- prefix only
    have hmaskSp : (' ' : Char) ∉ ':' :: pfxMask p := by
      intro hmem
      rw [List.mem_cons] at hmem
      rcases hmem with hmem | hmem
      · exact absurd hmem.symm (by decide)
      · exact pfxMask_no_space (hpfxwf p hpfxCase) hmem
    have hstr : messageStr m = (':' :: pfxMask p) ++ ' ' ::
        joinSep ' ' ([m.command, paramsStr m.parameters].filter (· ≠ [])) := by
      rw [messageStr_parts, htagsCase, hpfxCase]
      simp only [List.nil_append, List.singleton_append]
      rw [joinSep_cons_ne hcoreNe]
    have hheadAt : ((':' :: pfxMask p) ++ ' ' ::
        joinSep ' ' ([m.command, paramsStr m.parameters].filter (· ≠ []))).head? ≠
        some '@' := by
      simp
    have e1 := sentinelSplit_miss hheadAt
    have e2 := sentinelSplit_hit hmaskSp rfl
      (joinSep ' ' ([m.command, paramsStr m.parameters].filter (· ≠ [])))
    unfold parsesEq
    rw [hstr]
    simp only [messageParse, e1, e2, pfxParse_mask (hpfxwf p hpfxCase)]
    simp only [msgEq, optEq, htagsCase, hpfxCase, hcore1, hcore2]
    simp
  · -- tags only
    have htagSp : (' ' : Char) ∉ '@' :: tagListStr l := by
      intro hmem
      rw [List.mem_cons] at hmem
      rcases hmem with hmem | hmem
      · exact absurd hmem.symm (by decide)
      · exact tagListStr_no_space (wfTags_spec (htagsCase ▸ htags)).1 hmem
    have hstr : messageStr m = ('@' :: tagListStr l) ++ ' ' ::
        joinSep ' ' ([m.command, paramsStr m.parameters].filter (· ≠ [])) := by
      rw [messageStr_parts, htagsCase, hpfxCase]
      simp only [List.nil_append, List.singleton_append]
      rw [joinSep_cons_ne hcoreNe]
    have e1 := sentinelSplit_hit htagSp rfl
      (joinSep ' ' ([m.command, paramsStr m.parameters].filter (· ≠ [])))
    have e2 := sentinelSplit_miss hcoreHeadCol
    unfold parsesEq
    rw [hstr]
    simp only [messageParse, e1, e2]
    simp only [msgEq, optEq]
    simp [htagsCase, hpfxCase, tags_roundTrip (htagsCase ▸ htags)]
    exact ⟨by simpa using hcore1, by simpa using hcore2⟩
  · -- tags and prefix
    have htagSp : (' ' : Char) ∉ '@' :: tagListStr l := by
      intro hmem
      rw [List.mem_cons] at hmem
      rcases hmem with hmem | hmem
      · exact absurd hmem.symm (by decide)
      · exact tagListStr_no_space (wfTags_spec (htagsCase ▸ htags)).1 hmem
    have hmaskSp : (' ' : Char) ∉ ':' :: pfxMask p := by
      intro hmem
      rw [List.mem_cons] at hmem
      rcases hmem with hmem | hmem
      · exact absurd hmem.symm (by decide)
      · exact pfxMask_no_space (hpfxwf p hpfxCase) hmem
    have hstr : messageStr m = ('@' :: tagListStr l) ++ ' ' ::
        ((':' :: pfxMask p) ++ ' ' ::
          joinSep ' ' ([m.command, paramsStr m.parameters].filter (· ≠ []))) := by
      rw [messageStr_parts, htagsCase, hpfxCase]
      simp only [List.singleton_append, List.cons_append, List.nil_append]
      rw [joinSep_cons_ne (by simp), joinSep_cons_ne hcoreNe]
      simp
    have e1 := sentinelSplit_hit htagSp rfl
      ((':' :: pfxMask p) ++ ' ' ::
        joinSep ' ' ([m.command, paramsStr m.parameters].filter (· ≠ [])))
    have e2 := sentinelSplit_hit hmaskSp rfl
      (joinSep ' ' ([m.command, paramsStr m.parameters].filter (· ≠ [])))
    unfold parsesEq
    rw [hstr]
    simp only [messageParse, e1, e2, pfxParse_mask (hpfxwf p hpfxCase)]
    simp only [msgEq, optEq]
    simp [htagsCase, hpfxCase, tags_roundTrip (htagsCase ▸ htags)]
    exact ⟨by simpa using hcore1, by simpa using hcore2⟩

/-! ### CAP entities (`Cap`, `CapList` of `irclib/parser.py`) -/

/-- A CAP entity: name and optional value. -/
structure Cap where
  name : Str
  value : Option Str
deriving DecidableEq, Repr

/-- `Cap.parse`: split on the first `=`; `value or None` turns an empty
value into an absent one. -/
def capParse (text : Str) : Cap :=
  let r := partitionStr '=' text
  ⟨r.1, if r.2.2 = [] then none else some r.2.2⟩

/-- The characters of Python `string.whitespace` (`str.strip()` default). -/
def isPySpace (c : Char) : Bool :=
  c = ' ' || c = '\t' || c = '\n' || c = '\r' || c = '\x0b' || c = '\x0c'

/-- Python `text.strip()`. -/
def pyStrip (s : Str) : Str :=
  ((s.dropWhile isPySpace).reverse.dropWhile isPySpace).reverse

/-- `CapList.parse`: drop one leading `:`, strip whitespace, and split the
stripped text on spaces — but the emptiness guard tests the text from
before the stripping (`[] if not text else ...` on `text`, not `stripped`). -/
def capListParse (text : Str) : List Cap :=
  let t : Str :=
    match text with
    | ':' :: rest => rest
    | _ => text
  let stripped := pyStrip t
  if t = [] then [] else (pySplit ' ' stripped).map capParse

/-! ### Hostmask matching (`match_mask` of `irclib/util/compare.py`)

`match_mask` compiles the glob pattern into the regex `^...$` where `?`
becomes `.`, `*` becomes `.*` and anything else is escaped.  `globMatch`
embeds that regex's acceptance: `.` never matches a newline, and `$` also
matches just before one trailing newline. -/

/-- The suffixes of `m` reachable by letting `.*` consume characters (it
cannot consume a newline). -/
def nlFreeSuffixes : Str → List Str
  | [] => [[]]
  | c :: rest => (c :: rest) :: (if c = '\n' then [] else nlFreeSuffixes rest)

def globMatch : Str → Str → Bool
  | [], m => m = [] || m = ['\n']
  | '*' :: p, m => (nlFreeSuffixes m).any (fun m2 => globMatch p m2)
  | '?' :: p, m =>
    (match m with
     | [] => false
     | c :: m2 => c ≠ '\n' && globMatch p m2)
  | c :: p, m =>
    (match m with
     | [] => false
     | d :: m2 => c = d && globMatch p m2)

/-- `match_mask(mask, pattern)`. -/
def matchMask (mask pattern : Str) : Bool := globMatch pattern mask

/-! ### Case-mapped strings (`Casemap`, `String` of `irclib/util/string.py`,
and the legacy `irclib/string.py`) -/

/-- `Casemap`: a `NamedTuple` of the two character sequences.  Its
construction performs no validation. -/
structure Casemap where
  lower : Str
  upper : Str
deriving DecidableEq, Repr

/-- `Casemap.__new__` (tuple construction): always succeeds, whatever the
lengths of the two sequences. -/
def casemapNew (lower upper : Str) : Except Unit Casemap := .ok ⟨lower, upper⟩

/-- Python `str.maketrans(x, y)`: a character translation table; raises
`ValueError` when the two strings differ in length. -/
def maketrans (x y : Str) : Except Unit (List (Char × Char)) :=
  if x.length = y.length then .ok (x.zip y) else .error ()

/-- `Casemap.lower_table` (`str.maketrans(self.lower, self.upper)`): built
on property access, not on construction. -/
def lowerTable (cm : Casemap) : Except Unit (List (Char × Char)) :=
  maketrans cm.lower cm.upper

/-- `Casemap.upper_table`. -/
def upperTable (cm : Casemap) : Except Unit (List (Char × Char)) :=
  maketrans cm.upper cm.lower

/-- The `ASCII` casemap constant. -/
def asciiCasemap : Casemap :=
  ⟨strL "ABCDEFGHIJKLMNOPQRSTUVWXYZ", strL "abcdefghijklmnopqrstuvwxyz"⟩

/-- Python `str.translate` with a character table. -/
def pyTranslate (table : List (Char × Char)) (s : Str) : Str :=
  s.map (fun c =>
    match table.lookup c with
    | some d => d
    | none => c)

/-- A `String` value of `irclib/util/string.py`: raw text plus its casemap
(the predefined casemaps have equal-length sequences, so their tables are
total and `zip` matches `maketrans`). -/
structure CaseString where
  raw : Str
  casemap : Casemap
deriving DecidableEq, Repr

/-- `String.casefold` = `lower` = `translate(casemap.lower_table)`, for
casemaps whose tables build (the predefined ones). -/
def csFold (s : CaseString) : Str :=
  pyTranslate (s.casemap.lower.zip s.casemap.upper) s.raw

/-- The values a `String` may be compared against. -/
inductive PyVal where
  | caseStr (s : CaseString)
  | plainStr (s : Str)
  | pyInt (n : Int)
  | pyNone
deriving DecidableEq, Repr

/-- Is the value a `str` (Python `isinstance(other, str)`; a `String` is
also a `str`)? -/
def isStrVal : PyVal → Bool
  | .caseStr _ => true
  | .plainStr _ => true
  | _ => false

/-- `String.__eq__` of `irclib/util/string.py` via `__internal_cmp`:
compare casefolded forms for `String` and `str` operands (a plain `str` is
wrapped with the left operand's casemap), return `NotImplemented` (here
`none`) for anything else. -/
def utilStringEq (s : CaseString) (other : PyVal) : Option Bool :=
  match other with
  | .caseStr o => some (decide (csFold s = csFold o))
  | .plainStr o => some (decide (csFold s = csFold ⟨o, s.casemap⟩))
  | _ => none

/-- Python `str()` of a compared value, as used by the legacy wrapper
(`str.__new__(cls, value)` stringifies its argument). -/
def pyStrOf : PyVal → Str
  | .caseStr s => s.raw
  | .plainStr s => s
  | .pyInt n => (toString n).data
  | .pyNone => strL "None"

/-- `String.__eq__` of the legacy `irclib/string.py`: a non-`String`
operand — whatever its type — is wrapped via `self._wrap(other)`, which
stringifies it; the comparison always produces a boolean. -/
def legacyStringEq (s : CaseString) (other : PyVal) : Option Bool :=
  match other with
  | .caseStr o => some (decide (csFold s = csFold o))
  | o => some (decide (csFold s = csFold ⟨pyStrOf o, s.casemap⟩))

/-! ### Byte decoding in `Message.parse` (`text.decode(errors="ignore")`) -/

/-- The range allowed for the first continuation byte after the lead `b`:
`E0`, `ED`, `F0` and `F4` restrict it to exclude overlong forms,
surrogates and values above `U+10FFFF`; every other lead (and every later
position) allows the full `80`–`BF`. -/
def contRange (b : Nat) : Nat × Nat :=
  if b = 0xE0 then (0xA0, 0xBF)
  else if b = 0xED then (0x80, 0x9F)
  else if b = 0xF0 then (0x90, 0xBF)
  else if b = 0xF4 then (0x80, 0x8F)
  else (0x80, 0xBF)

/-- Handle one byte in lead position for the UTF-8 decoder: an ASCII byte
is emitted, a valid lead byte opens a pending sequence `(needed
continuations, accumulated value, allowed range for the next byte)`, and
an invalid lead (`0x80`–`0xC1`, `0xF5`–`0xFF`) is ignored. -/
def utf8Lead (b : Nat) : Option Char × Option (Nat × Nat × Nat × Nat) :=
  if b ≤ 0x7F then (some (Char.ofNat b), none)
  else if 0xC2 ≤ b && b ≤ 0xDF then (none, some (1, b - 0xC0, 0x80, 0xBF))
  else if 0xE0 ≤ b && b ≤ 0xEF then
    (none, some (2, b - 0xE0, (contRange b).1, (contRange b).2))
  else if 0xF0 ≤ b && b ≤ 0xF4 then
    (none, some (3, b - 0xF0, (contRange b).1, (contRange b).2))
  else (none, none)

/-- The UTF-8 decoder run with `errors="ignore"`: invalid or truncated
sequences are dropped (the scan resumes at the first offending byte, which
is treated as a fresh lead), decoded scalars are kept.  Nothing is ever
replaced and no error is raised. -/
def utf8Run : Option (Nat × Nat × Nat × Nat) → List Nat → List Char
  | _, [] => []
  | none, b :: rest =>
    (match utf8Lead b with
     | (some ch, _) => ch :: utf8Run none rest
     | (none, st) => utf8Run st rest)
  | some (needed, acc, lo, hi), b :: rest =>
    if lo ≤ b && b ≤ hi then
      if needed ≤ 1 then Char.ofNat (acc * 64 + (b - 0x80)) :: utf8Run none rest
      else utf8Run (some (needed - 1, acc * 64 + (b - 0x80), 0x80, 0xBF)) rest
    else
      (match utf8Lead b with
       | (some ch, _) => ch :: utf8Run none rest
       | (none, st) => utf8Run st rest)

/-- CPython `bytes.decode("utf-8", errors="ignore")`, as invoked by
`Message.parse` on byte input. -/
def utf8DecodeIgnore (bs : List Nat) : List Char := utf8Run none bs

/-- `Message.parse` on a byte buffer: permissive decode, then the text
parse. -/
def messageParseBytes (bs : List Nat) : Except Unit Message :=
  messageParse (utf8DecodeIgnore bs)


theorem utf8Lead_ascii {b : Nat} (h : b ≤ 0x7F) :
    utf8Lead b = (some (Char.ofNat b), none) := by
  unfold utf8Lead
  rw [if_pos h]

theorem utf8Lead_badlead {b : Nat} (h : 0x80 ≤ b ∧ b ≤ 0xC1 ∨ 0xF5 ≤ b) :
    utf8Lead b = (none, none) := by
  unfold utf8Lead
  rw [if_neg (by omega),
    if_neg (by simp only [Bool.and_eq_true, decide_eq_true_eq]; omega),
    if_neg (by simp only [Bool.and_eq_true, decide_eq_true_eq]; omega),
    if_neg (by simp only [Bool.and_eq_true, decide_eq_true_eq]; omega)]

theorem utf8Lead_lead2 {b : Nat} (h1 : 0xC2 ≤ b) (h2 : b ≤ 0xDF) :
    utf8Lead b = (none, some (1, b - 0xC0, 0x80, 0xBF)) := by
  unfold utf8Lead
  rw [if_neg (by omega),
    if_pos (by simp only [Bool.and_eq_true, decide_eq_true_eq]; omega)]

theorem utf8Lead_lead3 {b : Nat} (h1 : 0xE0 ≤ b) (h2 : b ≤ 0xEF) :
    utf8Lead b = (none, some (2, b - 0xE0, (contRange b).1, (contRange b).2)) := by
  unfold utf8Lead
  rw [if_neg (by omega),
    if_neg (by simp only [Bool.and_eq_true, decide_eq_true_eq]; omega),
    if_pos (by simp only [Bool.and_eq_true, decide_eq_true_eq]; omega)]

theorem utf8Lead_lead4 {b : Nat} (h1 : 0xF0 ≤ b) (h2 : b ≤ 0xF4) :
    utf8Lead b = (none, some (3, b - 0xF0, (contRange b).1, (contRange b).2)) := by
  unfold utf8Lead
  rw [if_neg (by omega),
    if_neg (by simp only [Bool.and_eq_true, decide_eq_true_eq]; omega),
    if_neg (by simp only [Bool.and_eq_true, decide_eq_true_eq]; omega),
    if_pos (by simp only [Bool.and_eq_true, decide_eq_true_eq]; omega)]

theorem utf8Run_some_nil (st : Nat × Nat × Nat × Nat) :
    utf8Run (some st) [] = [] := rfl

theorem utf8Run_none_skip {b : Nat} (h : utf8Lead b = (none, none))
    (bs : List Nat) : utf8Run none (b :: bs) = utf8Run none bs := by
  simp only [utf8Run, h]

theorem utf8Run_none_pending {b : Nat} {st : Nat × Nat × Nat × Nat}
    (h : utf8Lead b = (none, some st)) (bs : List Nat) :
    utf8Run none (b :: bs) = utf8Run (some st) bs := by
  simp only [utf8Run, h]

theorem utf8Run_resume {n a lo hi c : Nat} (h : ¬(lo ≤ c ∧ c ≤ hi))
    (bs : List Nat) :
    utf8Run (some (n, a, lo, hi)) (c :: bs) = utf8Run none (c :: bs) := by
  conv_rhs => rw [utf8Run]
  rw [utf8Run]
  rw [if_neg (by simp only [Bool.and_eq_true, decide_eq_true_eq]; exact h)]

theorem utf8Run_cont_step {n a lo hi c : Nat} (hr : lo ≤ c ∧ c ≤ hi)
    (hn : ¬(n ≤ 1)) (bs : List Nat) :
    utf8Run (some (n, a, lo, hi)) (c :: bs) =
      utf8Run (some (n - 1, a * 64 + (c - 0x80), 0x80, 0xBF)) bs := by
  rw [utf8Run]
  rw [if_pos (by simp only [Bool.and_eq_true, decide_eq_true_eq]; exact hr),
    if_neg hn]

instance {e : Type} {a : Type} [DecidableEq e] [DecidableEq a] :
    DecidableEq (Except e a) := fun x y =>
  match x, y with
  | .error u, .error v =>
    if h : u = v then isTrue (by rw [h]) else isFalse (fun hc => h (by injection hc))
  | .ok u, .ok v =>
    if h : u = v then isTrue (by rw [h]) else isFalse (fun hc => h (by injection hc))
  | .error _, .ok _ => isFalse (fun hc => Except.noConfusion hc)
  | .ok _, .error _ => isFalse (fun hc => Except.noConfusion hc)

/-! ### The claims -/

/-- A well-formed sample message with every feature: two tags (one with a
value, one bare), a full prefix, a command, a middle parameter and a
trailing parameter. -/
def mW : Message :=
  ⟨some [⟨strL "time", strL "2021-01-01T00:00:00.000Z", true⟩,
         ⟨strL "id", [], false⟩],
   some ⟨strL "nick", strL "user", strL "host"⟩,
   strL "PRIVMSG",
   ⟨[strL "#chan", strL "hello world"], true⟩⟩

/-- C1 (counterexample): the round trip is not universal.  The message with
no tags, no prefix, command `privmsg` and no parameters serializes to
`privmsg`, which parses back with the upper-cased command `PRIVMSG`, a
message not equal to the original. -/
theorem C1_roundtrip_counterexample :
    parsesEq (messageStr ⟨none, none, strL "privmsg", ⟨[], false⟩⟩)
      ⟨none, none, strL "privmsg", ⟨[], false⟩⟩ = false := by decide

/-- C1 (amended): for every well-formed message — ASCII upper-case
spaceless non-empty command not starting with `@` or `:`, tag names
non-empty, distinct and free of `;`/`=`/space, prefix components free of
space and newline with the nick free of `!`/`@` and not starting with `:`
and the user free of `@`, and all parameters before the last non-empty,
spaceless and not starting with `:` — parsing the serialized form yields
a message equal to the original under the code's content equality (tags
as name-to-value maps, prefix components, command, parameter items). -/
theorem C1_roundtrip (m : Message) (h : wfMessage m = true) :
    parsesEq (messageStr m) m = true := messageRoundTrip h

/-- C1 (witness): the round trip at a concrete message with tags, prefix,
a middle parameter and a trailing parameter. -/
theorem C1_roundtrip_witness :
    wfMessage mW = true ∧ parsesEq (messageStr mW) mW = true :=
  ⟨by decide, C1_roundtrip mW (by decide)⟩

/-- C2 (counterexample): `has_value = false` does not always serialize as
the bare name: a tag with a non-empty value serializes as `name=value`
regardless of the flag. -/
theorem C2_tag_counterexample :
    tagStr ⟨strL "a", strL "b", false⟩ = strL "a=b" ∧
      tagStr ⟨strL "a", strL "b", false⟩ ≠ strL "a" := by decide

/-- C2 (amended): `MessageTag.parse "a"` has `has_value = false` and
`"a="` has `has_value = true` with empty value; they serialize back to
`"a"` and `"a="`; generally `has_value = true` serializes as
`name=escape(value)` even when the value is empty, `has_value = false`
serializes as the bare name provided the value is empty, and any tag with
a non-empty value serializes as `name=escape(value)` regardless of the
stored flag. -/
theorem C2_tag_value_presence (t : MessageTag) :
    tagParse (strL "a") = ⟨strL "a", [], false⟩ ∧
    tagParse (strL "a=") = ⟨strL "a", [], true⟩ ∧
    tagStr ⟨strL "a", [], false⟩ = strL "a" ∧
    tagStr ⟨strL "a", [], true⟩ = strL "a=" ∧
    (t.hasValue = true → tagStr t = t.name ++ '=' :: escape t.value) ∧
    (t.hasValue = false → t.value = [] → tagStr t = t.name) ∧
    (t.value ≠ [] → tagStr t = t.name ++ '=' :: escape t.value) := by
  refine ⟨by decide, by decide, by decide, by decide, ?_, ?_, ?_⟩
  · intro h
    unfold tagStr
    rw [if_pos (Or.inr (by simp [h]))]
  · intro h hv
    unfold tagStr
    rw [if_neg (by simp [h, hv])]
  · intro h
    unfold tagStr
    rw [if_pos (Or.inl h)]

/-- C2 (witness): the general clauses, each at a concrete tag — a set flag
with a value, an unset flag with an empty value, and an unset flag with a
non-empty value (the case of the counterexample). -/
theorem C2_tag_value_presence_witness :
    tagStr ⟨strL "a", strL "b c", true⟩ = strL "a" ++ '=' :: escape (strL "b c") ∧
    tagStr ⟨strL "x", [], false⟩ = strL "x" ∧
    tagStr ⟨strL "a", strL "b", false⟩ = strL "a" ++ '=' :: escape (strL "b") :=
  ⟨((C2_tag_value_presence ⟨strL "a", strL "b c", true⟩).2.2.2.2.1) rfl,
   ((C2_tag_value_presence ⟨strL "x", [], false⟩).2.2.2.2.2.1) rfl rfl,
   ((C2_tag_value_presence ⟨strL "a", strL "b", false⟩).2.2.2.2.2.2) (by decide)⟩

/-- C3: serializing `["a", "b "]` with `has_trail = false` still yields
`"a :b "` (the embedded space forces the colon), `"a :b "` parses back to
those two items, and in general a non-empty parameter list is rendered with
a colon on its final parameter exactly when the stored flag is set or the
final parameter contains a space, starts with `:`, or is empty. -/
theorem C3_trailing_param (ps : ParamList) :
    paramsStr ⟨[strL "a", strL "b "], false⟩ = strL "a :b " ∧
    paramsParse (strL "a :b ") = ([strL "a", strL "b "], true) ∧
    (ps.items ≠ [] →
      ((ps.hasTrail || needsTrail (ps.items.getLastD [])) = true →
        paramsStr ps = joinSep ' ' (ps.items.dropLast ++ [':' :: ps.items.getLastD []])) ∧
      ((ps.hasTrail || needsTrail (ps.items.getLastD [])) = false →
        paramsStr ps = joinSep ' ' ps.items)) := by
  refine ⟨by decide, by decide, ?_⟩
  intro hne
  unfold paramsStr
  rw [if_neg hne]
  constructor
  · intro h
    rw [if_pos h]
  · intro h
    rw [if_neg (by rw [h]; simp)]

/-- C3 (witness): the general clause at the concrete list `["a", "b "]`. -/
theorem C3_trailing_param_witness :
    paramsStr ⟨[strL "a", strL "b "], false⟩ =
      joinSep ' ' ([strL "a"] ++ [':' :: strL "b "]) :=
  ((C3_trailing_param ⟨[strL "a", strL "b "], false⟩).2.2 (by decide)).1 (by decide)

/-- C4: `Message.parse` is not total — an interior newline in the prefix
span makes `PREFIX_RE` fail to match, and `Prefix.parse` raises
`ParseError` (the code's own comment claims this "should never trip"). -/
theorem C4_parse_error_newline :
    messageParse (strL ":a\nb x") = Except.error () ∧
      pfxParse (strL "a\nb") = Except.error () := ⟨rfl, rfl⟩

/-- C5 (counterexample): decoding the bytes `61 FF 62` with the code's
`errors="ignore"` yields `"ab"` — the invalid byte is silently dropped, no
replacement character appears, and `Message.parse` sees exactly the text
with the byte deleted. -/
theorem C5_replacement_counterexample :
    utf8DecodeIgnore [0x61, 0xFF, 0x62] = strL "ab" ∧
    Char.ofNat 0xFFFD ∉ utf8DecodeIgnore [0x61, 0xFF, 0x62] ∧
    messageParseBytes [0x61, 0xFF, 0x62] = messageParse (strL "ab") :=
  ⟨by decide, by decide, rfl⟩

/-- C5 (amended): the decoder of `Message.parse` never raises, keeps every
valid scalar, and drops every invalid sequence, resuming at the first
offending byte.  Over every surrounding input: an ASCII byte is kept; a
byte that is invalid in lead position (`80`–`C1`, `F5`–`FF`) is deleted; a
two-, three- or four-byte lead followed by an out-of-range first
continuation (which excludes overlong forms, surrogates and values above
`U+10FFFF`) or by a later invalid continuation is deleted together with
its valid continuation prefix, decoding continuing at the offending byte;
a sequence truncated by the end of input is deleted.  No replacement
character is ever introduced. -/
theorem C5_decode_drops (b c1 c2 c3 : Nat) (bs : List Nat) :
    (b ≤ 0x7F → utf8Run none (b :: bs) = Char.ofNat b :: utf8Run none bs) ∧
    (0x80 ≤ b ∧ b ≤ 0xC1 ∨ 0xF5 ≤ b →
      utf8Run none (b :: bs) = utf8Run none bs) ∧
    (0xC2 ≤ b ∧ b ≤ 0xDF →
      utf8Run none [b] = [] ∧
      (¬(0x80 ≤ c1 ∧ c1 ≤ 0xBF) →
        utf8Run none (b :: c1 :: bs) = utf8Run none (c1 :: bs))) ∧
    (0xE0 ≤ b ∧ b ≤ 0xEF →
      utf8Run none [b] = [] ∧
      (¬((contRange b).1 ≤ c1 ∧ c1 ≤ (contRange b).2) →
        utf8Run none (b :: c1 :: bs) = utf8Run none (c1 :: bs)) ∧
      ((contRange b).1 ≤ c1 ∧ c1 ≤ (contRange b).2 →
        utf8Run none [b, c1] = [] ∧
        (¬(0x80 ≤ c2 ∧ c2 ≤ 0xBF) →
          utf8Run none (b :: c1 :: c2 :: bs) = utf8Run none (c2 :: bs)))) ∧
    (0xF0 ≤ b ∧ b ≤ 0xF4 →
      utf8Run none [b] = [] ∧
      (¬((contRange b).1 ≤ c1 ∧ c1 ≤ (contRange b).2) →
        utf8Run none (b :: c1 :: bs) = utf8Run none (c1 :: bs)) ∧
      ((contRange b).1 ≤ c1 ∧ c1 ≤ (contRange b).2 →
        utf8Run none [b, c1] = [] ∧
        (¬(0x80 ≤ c2 ∧ c2 ≤ 0xBF) →
          utf8Run none (b :: c1 :: c2 :: bs) = utf8Run none (c2 :: bs)) ∧
        (0x80 ≤ c2 ∧ c2 ≤ 0xBF →
          utf8Run none [b, c1, c2] = [] ∧
          (¬(0x80 ≤ c3 ∧ c3 ≤ 0xBF) →
            utf8Run none (b :: c1 :: c2 :: c3 :: bs) =
              utf8Run none (c3 :: bs))))) := by
  refine ⟨?_, ?_, ?_, ?_, ?_⟩
  · intro hb
    simp only [utf8Run, utf8Lead_ascii hb]
  · intro hb
    exact utf8Run_none_skip (utf8Lead_badlead hb) bs
  · intro hb
    constructor
    · rw [utf8Run_none_pending (utf8Lead_lead2 hb.1 hb.2), utf8Run_some_nil]
    · intro hc1
      rw [utf8Run_none_pending (utf8Lead_lead2 hb.1 hb.2), utf8Run_resume hc1]
  · intro hb
    refine ⟨?_, ?_, ?_⟩
    · rw [utf8Run_none_pending (utf8Lead_lead3 hb.1 hb.2), utf8Run_some_nil]
    · intro hc1
      rw [utf8Run_none_pending (utf8Lead_lead3 hb.1 hb.2), utf8Run_resume hc1]
    · intro hc1
      constructor
      · rw [utf8Run_none_pending (utf8Lead_lead3 hb.1 hb.2),
          utf8Run_cont_step hc1 (by omega), utf8Run_some_nil]
      · intro hc2
        rw [utf8Run_none_pending (utf8Lead_lead3 hb.1 hb.2),
          utf8Run_cont_step hc1 (by omega), utf8Run_resume hc2]
  · intro hb
    refine ⟨?_, ?_, ?_⟩
    · rw [utf8Run_none_pending (utf8Lead_lead4 hb.1 hb.2), utf8Run_some_nil]
    · intro hc1
      rw [utf8Run_none_pending (utf8Lead_lead4 hb.1 hb.2), utf8Run_resume hc1]
    · intro hc1
      refine ⟨?_, ?_, ?_⟩
      · rw [utf8Run_none_pending (utf8Lead_lead4 hb.1 hb.2),
          utf8Run_cont_step hc1 (by omega), utf8Run_some_nil]
      · intro hc2
        rw [utf8Run_none_pending (utf8Lead_lead4 hb.1 hb.2),
          utf8Run_cont_step hc1 (by omega), utf8Run_resume hc2]
      · intro hc2
        constructor
        · rw [utf8Run_none_pending (utf8Lead_lead4 hb.1 hb.2),
            utf8Run_cont_step hc1 (by omega), utf8Run_cont_step hc2 (by omega),
            utf8Run_some_nil]
        · intro hc3
          rw [utf8Run_none_pending (utf8Lead_lead4 hb.1 hb.2),
            utf8Run_cont_step hc1 (by omega), utf8Run_cont_step hc2 (by omega),
            utf8Run_resume hc3]

/-- C5 (witness): the drop clauses at concrete invalid sequences — the
invalid lead `FF`, the truncated three-byte sequence `E2 82` cut off by
`41`, and the surrogate lead pair `ED A0`. -/
theorem C5_decode_drops_witness :
    utf8Run none [0xFF, 0x61] = utf8Run none [0x61] ∧
    utf8Run none [0xE2, 0x82, 0x41] = utf8Run none [0x41] ∧
    utf8Run none [0xED, 0xA0, 0x80] = utf8Run none [0xA0, 0x80] :=
  ⟨(C5_decode_drops 0xFF 0 0 0 [0x61]).2.1 (by omega),
   (((C5_decode_drops 0xE2 0x82 0x41 0 []).2.2.2.1 (by omega)).2.2
     (by decide)).2 (by decide),
   ((C5_decode_drops 0xED 0xA0 0 0 [0x80]).2.2.2.1 (by omega)).2.1 (by decide)⟩

/-- C6 (counterexample): a prefix with empty nick but non-empty user is
truthy — `Prefix.__bool__` is `any(self)`, not "nick is non-empty". -/
theorem C6_truthiness_counterexample :
    pfxBool ⟨[], strL "user", []⟩ = true := by decide

/-- C6 (amended): a prefix is truthy exactly when any of nick, user, host
is non-empty. -/
theorem C6_truthiness (p : Pfx) :
    pfxBool p = true ↔ (p.nick ≠ [] ∨ p.user ≠ [] ∨ p.host ≠ []) := by
  unfold pfxBool
  simp [or_assoc]

/-- C7 (counterexample): the legacy `irclib/string.py` `String.__eq__`
coerces a non-string operand through its string form and returns a boolean
— `String("5") == 5` evaluates to `True` there, rather than signalling
"not comparable". -/
theorem C7_legacy_counterexample :
    legacyStringEq ⟨strL "5", asciiCasemap⟩ (.pyInt 5) = some true := by decide

/-- C7 (amended): the current `irclib/util/string.py` `String.__eq__`
returns `NotImplemented` (modelled `none`) for every non-string operand;
only the legacy module coerces. -/
theorem C7_not_comparable (s : CaseString) (x : PyVal) (h : isStrVal x = false) :
    utilStringEq s x = none := by
  cases x <;> simp_all [isStrVal, utilStringEq]

/-- C7 (witness): comparison of a concrete string against an integer. -/
theorem C7_not_comparable_witness :
    isStrVal (.pyInt 3) = false ∧
      utilStringEq ⟨strL "abc", asciiCasemap⟩ (.pyInt 3) = none :=
  ⟨by decide, C7_not_comparable ⟨strL "abc", asciiCasemap⟩ (.pyInt 3) (by decide)⟩

/-- C8 (counterexample): constructing a `Casemap` from sequences of
different lengths succeeds — the `NamedTuple` performs no validation — and
only accessing `lower_table` raises (`str.maketrans`). -/
theorem C8_construction_counterexample :
    casemapNew (strL "ab") (strL "xyz") = Except.ok ⟨strL "ab", strL "xyz"⟩ ∧
      lowerTable ⟨strL "ab", strL "xyz"⟩ = Except.error () := by decide

/-- C8 (amended): construction always succeeds; the length-mismatch error
surfaces exactly when a translation table is accessed. -/
theorem C8_deferred_failure (x y : Str) :
    casemapNew x y = Except.ok ⟨x, y⟩ ∧
    (lowerTable ⟨x, y⟩ = Except.error () ↔ x.length ≠ y.length) ∧
    (upperTable ⟨x, y⟩ = Except.error () ↔ x.length ≠ y.length) := by
  refine ⟨rfl, ?_, ?_⟩
  · unfold lowerTable maketrans
    split_ifs with hl <;> simp_all
  · unfold upperTable maketrans
    split_ifs with hl <;> simp_all
    omega

/-- C9: `CapList.parse` checks emptiness on the text from before the
whitespace stripping, so the whitespace-only input `" "` produces one Cap
with an empty name instead of the empty list the stripping was meant to
guarantee; the empty string and `":"` do give the empty list. -/
theorem C9_caplist_whitespace :
    capListParse (strL " ") = [⟨[], none⟩] ∧
    capListParse [] = [] ∧
    capListParse (strL ":") = [] := by decide

/-- C10: `match_mask` folds no case: the same mask and pattern differing
only in the case of literal characters do not match, while the exact-case
pair does. -/
theorem C10_match_mask_case_sensitive :
    matchMask (strL "NICK!user@host") (strL "nick!*@*") = false ∧
    matchMask (strL "nick!user@host") (strL "nick!*@*") = true := by decide

end Irc
